import Mathlib

/-!
# rgf / rgv : parsing and aligning ripgrep output

Shallow embedding of `src/rgf.go` (and of `src/rgv.go`, whose `parseResults`,
`getIndexOfRgDelimiter`, `string` and `writeResults` are the same code with the
record type spelled `rgResult`).

Modelling conventions.

* A Go `string` is modelled as the list of its Unicode code points (`GoString`);
  the input is UTF-8 text, so every string decodes that way.  Go's `len` counts
  bytes, so `len` sums the UTF-8 widths of the code points.
* Go's `int` is modelled as `Int`; the only arithmetic is on string lengths, far
  from the 64-bit bounds.
* A run-time panic (indexing the `nil` slice returned by a failed
  `FindStringSubmatch`, `strings.Repeat` with a negative count) is `none`.
* `regexp` is the Go standard library: its leftmost-first (backtracking
  priority) semantics is modelled by lists of alternatives in priority order.
-/

namespace Rg

/-- A Go string holding UTF-8 text, as its sequence of code points. -/
abbrev GoString := List Char

/-- Go `len(s)`: the number of bytes of the UTF-8 encoding. -/
def len (s : GoString) : Int :=
  ((s.map Char.utf8Size).sum : Nat)

/-- Go `utf8.RuneCountInString(s)`: the number of code points (characters). -/
def runeCount (s : GoString) : Int :=
  (s.length : Nat)

/-! ## The regular expression `(.+)\:(\d+)\:\s*(.+)` -/

/-- Class `.` (no `s` flag): any character except the line feed. -/
def isDot (c : Char) : Bool := c != '\n'

/-- Class `\d`: the ASCII digits `[0-9]`. -/
def isDigit (c : Char) : Bool := decide ('0' ≤ c) && decide (c ≤ '9')

/-- Class `\s` of RE2 syntax: `[\t\n\f\r ]`. -/
def isSpace (c : Char) : Bool :=
  c == '\t' || c == '\n' || c == '\x0c' || c == '\r' || c == ' '

/-- Greedy `x*` over a character class: every way of splitting the input into
(matched, remaining), the longest match first, the empty match last. -/
def reStar (p : Char → Bool) : GoString → List (GoString × GoString)
  | [] => [([], [])]
  | c :: cs =>
    if p c then (reStar p cs).map (fun m => (c :: m.1, m.2)) ++ [([], c :: cs)]
    else [([], c :: cs)]

/-- Greedy `x+` over a character class: as `reStar`, without the empty match. -/
def rePlus (p : Char → Bool) : GoString → List (GoString × GoString)
  | [] => []
  | c :: cs => if p c then (reStar p cs).map (fun m => (c :: m.1, m.2)) else []

/-- A literal character: the remaining input when the input starts with it. -/
def reLit (c : Char) : GoString → List GoString
  | [] => []
  | d :: ds => if d = c then [ds] else []

/-- All matches of `(.+)\:(\d+)\:\s*(.+)` that begin at the start of the input,
in backtracking priority order, each as `[whole, group1, group2, group3]`. -/
def matchAt (s : GoString) : List (List GoString) :=
  (rePlus isDot s).flatMap fun g1 =>
  (reLit ':' g1.2).flatMap fun r1 =>
  (rePlus isDigit r1).flatMap fun g2 =>
  (reLit ':' g2.2).flatMap fun r2 =>
  (reStar isSpace r2).flatMap fun ws =>
  (rePlus isDot ws.2).map fun g3 =>
    [g1.1 ++ ':' :: g2.1 ++ ':' :: ws.1 ++ g3.1, g1.1, g2.1, g3.1]

/-- Model of `r.FindStringSubmatch(s)`: the preferred match at the leftmost
position where the expression matches, or the empty (`nil`) slice. -/
def FindStringSubmatch : GoString → List GoString
  | [] => []
  | c :: cs =>
    match (matchAt (c :: cs)).head? with
    | some m => m
    | none => FindStringSubmatch cs

/-! ## Records -/

/-- Constant `GlobalPadding`. -/
def GlobalPadding : Int := 2

/-- Struct `RgResult` (`rgResult` in rgv.go). -/
structure RgResult where
  File : GoString
  Line : GoString
  Preview : GoString
  Padding : Int
  deriving DecidableEq, Repr

/-- Go `strings.Repeat(" ", count)`; panics when `count` is negative. -/
def stringsRepeatSpace (count : Int) : Option GoString :=
  if count < 0 then none else some (List.replicate count.toNat ' ')

/-- Method `RgResult.toString` (`rgResult.string` in rgv.go). -/
def RgResult.toString (r : RgResult) : Option GoString :=
  (stringsRepeatSpace r.Padding).map fun spaces =>
    let preview := spaces ++ r.Preview
    r.File ++ ':' :: r.Line ++ preview

/-- Function `getIndexOfRgDelimiter`, the loop from byte offset `i`. -/
def delimiterLoop : GoString → Int → Bool → Except String Int
  | [], _, _ => .error "The input string was not of the expected format!"
  | char :: rest, i, firstSeen =>
    if char = ':' then
      if firstSeen then .ok (i + 1)
      else delimiterLoop rest (i + char.utf8Size) true
    else delimiterLoop rest (i + char.utf8Size) firstSeen

/-- Function `getIndexOfRgDelimiter`: the byte index just after the second
colon, or the error (returned with index `-1` in Go). -/
def getIndexOfRgDelimiter (result : GoString) : Except String Int :=
  delimiterLoop result 0 false

/-- First loop of `parseResults`, with `longest` and `results` as state. -/
def parseLoop : List GoString → Int → List RgResult → Option (Int × List RgResult)
  | [], longest, results => some (longest, results)
  | result :: rest, longest, results =>
    match getIndexOfRgDelimiter result with
    | .ok _ =>
      let submatches := FindStringSubmatch result
      match submatches[1]?, submatches[2]?, submatches[3]? with
      | some file, some line, some preview =>
        let refLength := len file + len line
        let longest := if refLength > longest then refLength else longest
        parseLoop rest longest (results ++ [⟨file, line, preview, GlobalPadding⟩])
      | _, _, _ => none
    | .error _ => parseLoop rest longest results

/-- Second loop of `parseResults`: the alignment pass. -/
def alignLoop (longest : Int) (results : List RgResult) : List RgResult :=
  results.map fun result =>
    let padding := longest - (len result.File + len result.Line)
    if padding > 0 then { result with Padding := result.Padding + padding }
    else result

/-- Function `parseResults`. -/
def parseResults (rawResults : List GoString) : Option (List RgResult) :=
  (parseLoop rawResults 0 []).map fun st => alignLoop st.1 st.2

/-- Function `writeResults`: the bytes handed to the buffered writer and
flushed to the file, one `Fprintln` per record. -/
def writeResults : List RgResult → GoString → Option GoString
  | [], w => some w
  | result :: rest, w =>
    match result.toString with
    | some s => writeResults rest (w ++ s ++ ['\n'])
    | none => none

/-- Function `ParseArgs` of rgf.go, on `args = os.Args[1:]`. -/
def ParseArgs (args : List GoString) : Except String (GoString × GoString) :=
  match args with
  | [a0, a1] => .ok (a0, a1)
  | [a0] => .ok (a0, ".".toList)
  | _ => .error "Invalid number of arguments provided!"

/-- Function `parseArgs` of rgv.go, on `args = os.Args[1:]`. -/
def parseArgs (args : List GoString) : Except String (GoString × GoString) :=
  match args with
  | [a0, a1] => .ok (a0, a1)
  | [a0] => .ok (a0, ".".toList)
  | _ => .error "Invalid number of arguments provided!"

/-! ## Auxiliary notions used in the statements -/

/-- Length of the `file:line` prefix as the code measures it: `len(File) + len(Line)`. -/
def RgResult.refLength (r : RgResult) : Int := len r.File + len r.Line

/-- The running maximum kept in `longest` by the first loop of `parseResults`. -/
def longestFrom (longest : Int) (results : List RgResult) : Int :=
  results.foldl (fun l r => if r.refLength > l then r.refLength else l) longest

/-- The record built by the body of the first loop from one raw line that passed
the colon pre-check; `none` when indexing the submatch slice panics. -/
def recordOf (result : GoString) : Option RgResult :=
  let submatches := FindStringSubmatch result
  match submatches[1]?, submatches[2]?, submatches[3]? with
  | some file, some line, some preview => some ⟨file, line, preview, GlobalPadding⟩
  | _, _, _ => none

/-- The records appended by the first loop of `parseResults`, in order. -/
def collect : List GoString → Option (List RgResult)
  | [] => some []
  | result :: rest =>
    match getIndexOfRgDelimiter result with
    | .ok _ =>
      match recordOf result with
      | some r => (collect rest).map (r :: ·)
      | none => none
    | .error _ => collect rest

/-! ## Further notions used in the statements and proofs -/

/-- One step of the alignment pass, on one record. -/
def alignOne (longest : Int) (result : RgResult) : RgResult :=
  let padding := longest - (len result.File + len result.Line)
  if padding > 0 then { result with Padding := result.Padding + padding } else result

/-- The expression after group 1, `\:(\d+)\:\s*(.+)`, as `matchAt` continues once
`rePlus isDot` has proposed `g1`. -/
def matchRest (g1 : GoString × GoString) : List (List GoString) :=
  (reLit ':' g1.2).flatMap fun r1 =>
  (rePlus isDigit r1).flatMap fun g2 =>
  (reLit ':' g2.2).flatMap fun r2 =>
  (reStar isSpace r2).flatMap fun ws =>
  (rePlus isDot ws.2).map fun g3 =>
    [g1.1 ++ ':' :: g2.1 ++ ':' :: ws.1 ++ g3.1, g1.1, g2.1, g3.1]

/-- The rendered line the formatter contract describes: `File`, a colon, `Line`,
`Padding` spaces, `Preview`. -/
def renderedLine (r : RgResult) : GoString :=
  r.File ++ ":".toList ++ r.Line ++ List.replicate r.Padding.toNat ' ' ++ r.Preview

/-- The lines that pass the colon pre-check of `parseResults`. -/
def keptLines (lines : List GoString) : List GoString :=
  lines.filter fun l => decide (2 ≤ l.count ':')

/-- Number of characters (code points) of the rendered line that precede the preview. -/
def previewColumn (r : RgResult) : Option Int :=
  r.toString.map fun s => runeCount s - runeCount r.Preview

/-- The two-line example of the alignment section, as raw input lines. -/
def exampleLines : List GoString :=
  ["a.txt:3:foo".toList, "bb.txt:12:bar baz".toList]

/-- The three-line example with a line without colons. -/
def garbageLines : List GoString :=
  ["x:1:a".toList, "garbage line with no colons".toList, "y:2:b".toList]

/-- The lines of the dropped-line example with the unmatched line `a:b:c` in place of
the line without colons. -/
def unmatchedLines : List GoString :=
  ["x:1:a".toList, "a:b:c".toList, "y:2:b".toList]

/-- Two lines, the first with a non-ASCII file name (U+00E9, two bytes in UTF-8). -/
def nonAsciiLines : List GoString :=
  ["\u00e9:1:a".toList, "ab:1:b".toList]

/-- Two lines with the same `len(File) + len(Line)`, 10 bytes, whose `File:Line` parts
have 9 and 10 characters (U+00E9 takes two bytes in UTF-8). -/
def cafeLines : List GoString :=
  ["caf\u00e9.txt:3:foo".toList, "cafe.txt:12:bar".toList]

/-! ## Lemmas on the regular expression -/

theorem reStar_sound (p : Char → Bool) :
    ∀ (s m r : GoString), (m, r) ∈ reStar p s → s = m ++ r ∧ ∀ c ∈ m, p c = true := by
  intro s
  induction s with
  | nil =>
    intro m r h
    simp [reStar] at h
    obtain ⟨rfl, rfl⟩ := h
    simp
  | cons c cs ih =>
    intro m r h
    unfold reStar at h
    split at h
    · rename_i hp
      rcases List.mem_append.1 h with h1 | h1
      · obtain ⟨⟨m1, r1⟩, hm, heq⟩ := List.mem_map.1 h1
        simp only [Prod.mk.injEq] at heq
        obtain ⟨rfl, rfl⟩ := heq
        obtain ⟨e, hall⟩ := ih m1 r1 hm
        refine ⟨by simp [e], ?_⟩
        intro d hd
        rcases List.mem_cons.1 hd with rfl | hd
        · exact hp
        · exact hall d hd
      · simp only [List.mem_singleton, Prod.mk.injEq] at h1
        obtain ⟨rfl, rfl⟩ := h1
        simp
    · simp only [List.mem_singleton, Prod.mk.injEq] at h
      obtain ⟨rfl, rfl⟩ := h
      simp

theorem rePlus_sound (p : Char → Bool) (s m r : GoString) (h : (m, r) ∈ rePlus p s) :
    s = m ++ r ∧ m ≠ [] ∧ ∀ c ∈ m, p c = true := by
  cases s with
  | nil => simp [rePlus] at h
  | cons c cs =>
    simp only [rePlus] at h
    split at h
    · rename_i hp
      obtain ⟨⟨m1, r1⟩, hm, heq⟩ := List.mem_map.1 h
      simp only [Prod.mk.injEq] at heq
      obtain ⟨rfl, rfl⟩ := heq
      obtain ⟨e, hall⟩ := reStar_sound p cs m1 r1 hm
      refine ⟨by simp [e], by simp, ?_⟩
      intro d hd
      rcases List.mem_cons.1 hd with rfl | hd
      · exact hp
      · exact hall d hd
    · simp at h

theorem reLit_mem (c : Char) (s r : GoString) : r ∈ reLit c s ↔ s = c :: r := by
  cases s with
  | nil => simp [reLit]
  | cons d ds =>
    simp only [reLit]
    split
    · rename_i h
      subst h
      simp [eq_comm]
    · rename_i h
      simp [h]

/-- Shape of every alternative of `matchAt`. -/
theorem matchAt_sound (s : GoString) (m : List GoString) (h : m ∈ matchAt s) :
    ∃ f n ws t rest, m = [f ++ ':' :: n ++ ':' :: ws ++ t, f, n, t] ∧
      s = f ++ ':' :: n ++ ':' :: ws ++ t ++ rest ∧
      f ≠ [] ∧ (∀ c ∈ f, isDot c = true) ∧
      n ≠ [] ∧ (∀ c ∈ n, isDigit c = true) ∧
      (∀ c ∈ ws, isSpace c = true) ∧
      t ≠ [] ∧ (∀ c ∈ t, isDot c = true) := by
  unfold matchAt at h
  simp only [List.mem_flatMap, List.mem_map] at h
  obtain ⟨⟨f, r0⟩, h1, r1, h2, ⟨n, r2⟩, h3, r3, h4, ⟨ws, r4⟩, h5, ⟨t, rest⟩, h6, rfl⟩ := h
  obtain ⟨e1, hf, hfa⟩ := rePlus_sound _ _ _ _ h1
  have e2 := (reLit_mem _ _ _).1 h2
  obtain ⟨e3, hn, hna⟩ := rePlus_sound _ _ _ _ h3
  have e4 := (reLit_mem _ _ _).1 h4
  obtain ⟨e5, hwa⟩ := reStar_sound _ _ _ _ h5
  obtain ⟨e6, ht, hta⟩ := rePlus_sound _ _ _ _ h6
  simp only at e2 e4 e6
  refine ⟨f, n, ws, t, rest, rfl, ?_, hf, hfa, hn, hna, hwa, ht, hta⟩
  rw [e1, e2, e3, e4, e5, e6]
  simp

/-- Shape of the result of `FindStringSubmatch`. -/
theorem FindStringSubmatch_sound (s : GoString) :
    FindStringSubmatch s = [] ∨
    ∃ pre f n ws t rest, FindStringSubmatch s = [f ++ ':' :: n ++ ':' :: ws ++ t, f, n, t] ∧
      s = pre ++ f ++ ':' :: n ++ ':' :: ws ++ t ++ rest ∧
      f ≠ [] ∧ (∀ c ∈ f, isDot c = true) ∧
      n ≠ [] ∧ (∀ c ∈ n, isDigit c = true) ∧
      (∀ c ∈ ws, isSpace c = true) ∧
      t ≠ [] ∧ (∀ c ∈ t, isDot c = true) := by
  induction s with
  | nil => left; rfl
  | cons c cs ih =>
    unfold FindStringSubmatch
    cases hm : (matchAt (c :: cs)).head? with
    | some m =>
      right
      have hmem : m ∈ matchAt (c :: cs) := List.mem_of_mem_head? hm
      obtain ⟨f, n, ws, t, rest, e, es, hrest⟩ := matchAt_sound _ _ hmem
      exact ⟨[], f, n, ws, t, rest, by simpa using e, by simpa using es, hrest⟩
    | none =>
      simp only
      rcases ih with h | ⟨pre, f, n, ws, t, rest, e, es, hrest⟩
      · left; exact h
      · right
        exact ⟨c :: pre, f, n, ws, t, rest, e, by simp [es], hrest⟩

/-! ## Lemmas on the two loops of `parseResults` -/

theorem parseLoop_eq_collect :
    ∀ (lines : List GoString) (longest : Int) (results : List RgResult),
      parseLoop lines longest results =
        (collect lines).map fun new => (longestFrom longest new, results ++ new) := by
  intro lines
  induction lines with
  | nil => intro longest results; simp [parseLoop, collect, longestFrom]
  | cons l rest ih =>
    intro longest results
    rw [parseLoop, collect]
    cases hd : getIndexOfRgDelimiter l with
    | error e => simpa using ih longest results
    | ok i =>
      simp only [recordOf]
      split
      · rename_i file line preview h1 h2 h3
        simp only [h1, h2, h3, ih, Option.map_map]
        congr 1
        funext new
        simp [longestFrom, RgResult.refLength]
      · rename_i hne
        rfl

theorem parseResults_eq_collect (lines : List GoString) :
    parseResults lines = (collect lines).map fun new => alignLoop (longestFrom 0 new) new := by
  simp [parseResults, parseLoop_eq_collect, Option.map_map, Function.comp_def]

theorem len_nonneg (s : GoString) : 0 ≤ len s := by
  unfold len
  exact Int.natCast_nonneg _

theorem longestFrom_cons (longest : Int) (r : RgResult) (rs : List RgResult) :
    longestFrom longest (r :: rs) =
      longestFrom (if r.refLength > longest then r.refLength else longest) rs := by
  simp [longestFrom]

theorem longestFrom_ge_init : ∀ (rs : List RgResult) (longest : Int),
    longest ≤ longestFrom longest rs := by
  intro rs
  induction rs with
  | nil => intro longest; simp [longestFrom]
  | cons r rs ih =>
    intro longest
    rw [longestFrom_cons]
    have := ih (if r.refLength > longest then r.refLength else longest)
    by_cases hc : r.refLength > longest
    · rw [if_pos hc] at this ⊢; omega
    · rw [if_neg hc] at this ⊢; omega

theorem longestFrom_ge_mem : ∀ (rs : List RgResult) (longest : Int),
    ∀ r ∈ rs, r.refLength ≤ longestFrom longest rs := by
  intro rs
  induction rs with
  | nil => intro longest r hr; simp at hr
  | cons a rs ih =>
    intro longest r hr
    rw [longestFrom_cons]
    rcases List.mem_cons.1 hr with rfl | hr
    · have := longestFrom_ge_init rs (if r.refLength > longest then r.refLength else longest)
      by_cases hc : r.refLength > longest
      · rw [if_pos hc] at this ⊢; omega
      · rw [if_neg hc] at this ⊢; omega
    · exact ih _ r hr

theorem longestFrom_attained : ∀ (rs : List RgResult) (longest : Int),
    longestFrom longest rs = longest ∨ ∃ r ∈ rs, r.refLength = longestFrom longest rs := by
  intro rs
  induction rs with
  | nil => intro longest; left; simp [longestFrom]
  | cons a rs ih =>
    intro longest
    rw [longestFrom_cons]
    rcases ih (if a.refLength > longest then a.refLength else longest) with h | ⟨r, hr, h⟩
    · by_cases hc : a.refLength > longest
      · rw [if_pos hc] at h ⊢
        right; exact ⟨a, List.mem_cons_self _ _, h.symm⟩
      · rw [if_neg hc] at h ⊢
        left; exact h
    · right; exact ⟨r, List.mem_cons_of_mem _ hr, h⟩

theorem refLength_nonneg (r : RgResult) : 0 ≤ r.refLength := by
  have h1 := len_nonneg r.File
  have h2 := len_nonneg r.Line
  simp only [RgResult.refLength]
  omega

/-- On a non-empty list the running maximum from 0 is the prefix length of a record. -/
theorem longestFrom_zero_attained (rs : List RgResult) (hne : rs ≠ []) :
    ∃ r ∈ rs, r.refLength = longestFrom 0 rs := by
  rcases longestFrom_attained rs 0 with h | h
  · cases rs with
    | nil => exact absurd rfl hne
    | cons a rs =>
      refine ⟨a, List.mem_cons_self _ _, ?_⟩
      have h1 := longestFrom_ge_mem (a :: rs) 0 a (List.mem_cons_self _ _)
      have h2 := refLength_nonneg a
      omega
  · exact h

theorem longestFrom_congr : ∀ (rs rs2 : List RgResult) (longest : Int),
    rs.map RgResult.refLength = rs2.map RgResult.refLength →
    longestFrom longest rs = longestFrom longest rs2 := by
  intro rs
  induction rs with
  | nil =>
    intro rs2 longest h
    cases rs2 with
    | nil => rfl
    | cons b rs2 => simp at h
  | cons a rs ih =>
    intro rs2 longest h
    cases rs2 with
    | nil => simp at h
    | cons b rs2 =>
      simp only [List.map_cons, List.cons.injEq] at h
      rw [longestFrom_cons, longestFrom_cons, h.1]
      exact ih rs2 _ h.2

theorem alignLoop_eq_map (longest : Int) (rs : List RgResult) :
    alignLoop longest rs = rs.map (alignOne longest) := rfl

theorem alignOne_fields (longest : Int) (r : RgResult) :
    (alignOne longest r).File = r.File ∧ (alignOne longest r).Line = r.Line ∧
    (alignOne longest r).Preview = r.Preview := by
  unfold alignOne
  simp only
  split <;> simp

theorem alignOne_refLength (longest : Int) (r : RgResult) :
    (alignOne longest r).refLength = r.refLength := by
  obtain ⟨h1, h2, _⟩ := alignOne_fields longest r
  simp [RgResult.refLength, h1, h2]

theorem alignOne_padding (longest : Int) (r : RgResult) :
    (alignOne longest r).Padding =
      if longest - r.refLength > 0 then r.Padding + (longest - r.refLength) else r.Padding := by
  unfold alignOne RgResult.refLength
  simp only
  split <;> simp

theorem longestFrom_alignLoop (l0 longest : Int) (rs : List RgResult) :
    longestFrom l0 (alignLoop longest rs) = longestFrom l0 rs := by
  apply longestFrom_congr
  rw [alignLoop_eq_map, List.map_map]
  apply List.map_congr_left
  intro r _
  exact alignOne_refLength longest r

/-! ## Lemmas on the records built by the first loop -/

theorem recordOf_sound (l : GoString) (r : RgResult) (h : recordOf l = some r) :
    r.Padding = GlobalPadding ∧ FindStringSubmatch l ≠ [] ∧
    (FindStringSubmatch l).tail = [r.File, r.Line, r.Preview] ∧
    r.File ≠ [] ∧ r.Line ≠ [] ∧ (∀ c ∈ r.Line, isDigit c = true) ∧ r.Preview ≠ [] := by
  unfold recordOf at h
  rcases FindStringSubmatch_sound l with h0 | ⟨pre, f, n, ws, t, rest, e, -, hf, -, hn, hna, -, ht, -⟩
  · simp [h0] at h
  · simp only [e] at h ⊢
    simp only [List.getElem?_cons_succ, List.getElem?_cons_zero, Option.some.injEq] at h
    subst h
    simp only [List.tail_cons, ne_eq, reduceCtorEq, not_false_eq_true, true_and]
    exact ⟨hf, hn, hna, ht⟩

theorem collect_mem : ∀ (lines : List GoString) (new : List RgResult),
    collect lines = some new →
    ∀ r ∈ new, ∃ l ∈ lines, (∃ i, getIndexOfRgDelimiter l = .ok i) ∧ recordOf l = some r := by
  intro lines
  induction lines with
  | nil =>
    intro new h r hr
    simp [collect] at h
    subst h
    simp at hr
  | cons l rest ih =>
    intro new h r hr
    rw [collect] at h
    cases hd : getIndexOfRgDelimiter l with
    | error e =>
      rw [hd] at h
      obtain ⟨l2, hl2, hh⟩ := ih new h r hr
      exact ⟨l2, List.mem_cons_of_mem _ hl2, hh⟩
    | ok i =>
      rw [hd] at h
      simp only at h
      cases hrec : recordOf l with
      | none => rw [hrec] at h; simp at h
      | some r0 =>
        rw [hrec] at h
        simp only [Option.map_eq_some'] at h
        obtain ⟨new2, hnew2, rfl⟩ := h
        rcases List.mem_cons.1 hr with rfl | hr
        · exact ⟨l, List.mem_cons_self _ _, ⟨i, hd⟩, hrec⟩
        · obtain ⟨l2, hl2, hh⟩ := ih new2 hnew2 r hr
          exact ⟨l2, List.mem_cons_of_mem _ hl2, hh⟩

/-- Every record returned by `parseResults` is an aligned copy of a record built
by the first loop from some input line. -/
theorem parseResults_mem (lines : List GoString) (rs : List RgResult)
    (h : parseResults lines = some rs) :
    ∀ r ∈ rs, ∃ r0 l, l ∈ lines ∧ recordOf l = some r0 ∧
      r = alignOne (longestFrom 0 rs) r0 ∧ r0.refLength ≤ longestFrom 0 rs := by
  rw [parseResults_eq_collect] at h
  simp only [Option.map_eq_some'] at h
  obtain ⟨new, hnew, rfl⟩ := h
  intro r hr
  rw [longestFrom_alignLoop]
  rw [alignLoop_eq_map] at hr
  obtain ⟨r0, hr0, rfl⟩ := List.mem_map.1 hr
  obtain ⟨l, hl, -, hrec⟩ := collect_mem lines new hnew r0 hr0
  exact ⟨r0, l, hl, hrec, rfl, longestFrom_ge_mem new 0 r0 hr0⟩

/-! ## Lemmas on rendering -/

theorem toString_of_nonneg (r : RgResult) (h : 0 ≤ r.Padding) :
    r.toString = some (renderedLine r) := by
  have : ¬ r.Padding < 0 := by omega
  simp [RgResult.toString, stringsRepeatSpace, this, renderedLine]

theorem writeResults_append : ∀ (rs : List RgResult) (w : GoString),
    (∀ r ∈ rs, 0 ≤ r.Padding) →
    writeResults rs w = some (w ++ rs.flatMap fun r => renderedLine r ++ "\n".toList) := by
  intro rs
  induction rs with
  | nil => intro w _; simp [writeResults]
  | cons r rs ih =>
    intro w h
    rw [writeResults, toString_of_nonneg r (h r (List.mem_cons_self _ _))]
    simp only
    rw [ih _ (fun x hx => h x (List.mem_cons_of_mem _ hx))]
    simp

/-! ## Lemmas on the colon pre-check -/

theorem delimiterLoop_error_iff : ∀ (s : GoString) (i : Int) (firstSeen : Bool),
    (∃ e, delimiterLoop s i firstSeen = .error e) ↔
      s.count ':' + (if firstSeen then 1 else 0) < 2 := by
  intro s
  induction s with
  | nil => intro i firstSeen; cases firstSeen <;> simp [delimiterLoop]
  | cons c cs ih =>
    intro i firstSeen
    rw [delimiterLoop]
    by_cases hc : c = ':'
    · subst hc
      cases firstSeen
      · simp only [if_true, Bool.false_eq_true, if_false, ih, List.count_cons_self]
      · simp
    · rw [if_neg hc, ih, List.count_cons_of_ne (Ne.symm hc)]

theorem getIndexOfRgDelimiter_error_iff (s : GoString) :
    (∃ e, getIndexOfRgDelimiter s = .error e) ↔ s.count ':' < 2 := by
  simpa [getIndexOfRgDelimiter] using delimiterLoop_error_iff s 0 false

theorem getIndexOfRgDelimiter_ok_iff (s : GoString) :
    (∃ i, getIndexOfRgDelimiter s = .ok i) ↔ 2 ≤ s.count ':' := by
  have h := getIndexOfRgDelimiter_error_iff s
  cases hd : getIndexOfRgDelimiter s with
  | error e =>
    have : s.count ':' < 2 := h.1 ⟨e, hd⟩
    simp
    omega
  | ok i =>
    have : ¬ s.count ':' < 2 := fun hlt => by
      obtain ⟨e, he⟩ := h.2 hlt
      rw [hd] at he
      cases he
    simp
    omega

theorem collect_keptLines : ∀ lines : List GoString, collect lines = collect (keptLines lines) := by
  intro lines
  induction lines with
  | nil => rfl
  | cons l rest ih =>
    by_cases h2 : 2 ≤ l.count ':'
    · have hk : keptLines (l :: rest) = l :: keptLines rest := by
        simp [keptLines, h2]
      rw [hk, collect, collect, ih]
    · have hk : keptLines (l :: rest) = keptLines rest := by
        simp [keptLines, h2]
      rw [hk, collect, ← ih]
      cases hd : getIndexOfRgDelimiter l with
      | error e => rfl
      | ok i => exact absurd ((getIndexOfRgDelimiter_ok_iff l).1 ⟨i, hd⟩) h2

theorem recordOf_of_match (l : GoString) (h : FindStringSubmatch l ≠ []) :
    ∃ r, recordOf l = some r ∧ [r.File, r.Line, r.Preview] = (FindStringSubmatch l).tail := by
  rcases FindStringSubmatch_sound l with h0 | ⟨pre, f, n, ws, t, rest, e, -⟩
  · exact absurd h0 h
  · exact ⟨⟨f, n, t, GlobalPadding⟩, by simp [recordOf, e], by simp [e]⟩

theorem collect_all_match : ∀ lines : List GoString,
    (∀ l ∈ lines, 2 ≤ l.count ':' → FindStringSubmatch l ≠ []) →
    ∃ new, collect lines = some new ∧
      new.map (fun r => [r.File, r.Line, r.Preview]) =
        (keptLines lines).map fun l => (FindStringSubmatch l).tail := by
  intro lines
  induction lines with
  | nil => intro _; exact ⟨[], rfl, rfl⟩
  | cons l rest ih =>
    intro h
    obtain ⟨new, hnew, hmap⟩ := ih (fun x hx => h x (List.mem_cons_of_mem _ hx))
    by_cases h2 : 2 ≤ l.count ':'
    · obtain ⟨i, hi⟩ := (getIndexOfRgDelimiter_ok_iff l).2 h2
      obtain ⟨r, hr, hfields⟩ := recordOf_of_match l (h l (List.mem_cons_self _ _) h2)
      refine ⟨r :: new, ?_, ?_⟩
      · rw [collect, hi]
        simp [hr, hnew]
      · have hk : keptLines (l :: rest) = l :: keptLines rest := by
          simp [keptLines, h2]
        rw [hk]
        simp [hfields, hmap]
    · refine ⟨new, ?_, ?_⟩
      · rw [collect_keptLines] at hnew ⊢
        have hk : keptLines (l :: rest) = keptLines rest := by
          simp [keptLines, h2]
        rw [hk]
        exact hnew
      · have hk : keptLines (l :: rest) = keptLines rest := by
          simp [keptLines, h2]
        rw [hk]
        exact hmap

/-! ## Lemmas on the aligned records -/

/-- What the alignment pass guarantees for each returned record, with `longest` the
running maximum over the returned records. -/
theorem parseResults_mem_aligned (lines : List GoString) (rs : List RgResult)
    (h : parseResults lines = some rs) :
    ∀ r ∈ rs, r.refLength ≤ longestFrom 0 rs ∧
      r.Padding = 2 + (longestFrom 0 rs - r.refLength) ∧
      (∀ c ∈ r.Line, isDigit c = true) := by
  intro r hr
  obtain ⟨r0, l, -, hrec, rfl, hle⟩ := parseResults_mem lines rs h r hr
  obtain ⟨hpad, -, -, -, -, hna, -⟩ := recordOf_sound l r0 hrec
  have hp := alignOne_padding (longestFrom 0 rs) r0
  have hl := alignOne_refLength (longestFrom 0 rs) r0
  obtain ⟨-, e2, -⟩ := alignOne_fields (longestFrom 0 rs) r0
  simp only [GlobalPadding] at hpad
  rw [hl, e2]
  refine ⟨hle, ?_, hna⟩
  rw [hp]
  split <;> omega

/-! ## Lemmas on unmatched lines -/

theorem recordOf_eq_none (l : GoString) (h : FindStringSubmatch l = []) : recordOf l = none := by
  simp [recordOf, h]

theorem collect_eq_none : ∀ (lines : List GoString) (l : GoString), l ∈ lines →
    2 ≤ l.count ':' → FindStringSubmatch l = [] → collect lines = none := by
  intro lines
  induction lines with
  | nil => intro l hl; simp at hl
  | cons x rest ih =>
    intro l hl h2 hm
    rw [collect]
    rcases List.mem_cons.1 hl with rfl | hl
    · obtain ⟨i, hi⟩ := (getIndexOfRgDelimiter_ok_iff l).2 h2
      rw [hi]
      simp [recordOf_eq_none l hm]
    · have hrest := ih l hl h2 hm
      cases getIndexOfRgDelimiter x with
      | error e => exact hrest
      | ok i =>
        simp only
        cases recordOf x with
        | none => rfl
        | some r => simp [hrest]

/-! ## Priority order of the alternatives -/

/-- When the class fails right after `m`, the longest alternative of `x*` on
`m ++ r` is `m`. -/
theorem reStar_head (p : Char → Bool) : ∀ (m r : GoString),
    (∀ c ∈ m, p c = true) → (∀ c, r.head? = some c → p c = false) →
    ∃ l2, reStar p (m ++ r) = (m, r) :: l2 := by
  intro m
  induction m with
  | nil =>
    intro r _ hr
    cases r with
    | nil => exact ⟨[], rfl⟩
    | cons c cs =>
      have : p c = false := hr c rfl
      exact ⟨[], by simp [reStar, this]⟩
  | cons c m ih =>
    intro r hm hr
    obtain ⟨l2, h2⟩ := ih r (fun x hx => hm x (List.mem_cons_of_mem _ hx)) hr
    have hc : p c = true := hm c (List.mem_cons_self _ _)
    refine ⟨l2.map (fun x => (c :: x.1, x.2)) ++ [([], c :: (m ++ r))], ?_⟩
    simp [reStar, hc, h2]

theorem rePlus_head (p : Char → Bool) (m r : GoString) (hne : m ≠ [])
    (hm : ∀ c ∈ m, p c = true) (hr : ∀ c, r.head? = some c → p c = false) :
    ∃ l2, rePlus p (m ++ r) = (m, r) :: l2 := by
  cases m with
  | nil => exact absurd rfl hne
  | cons c m =>
    obtain ⟨l2, h2⟩ := reStar_head p m r (fun x hx => hm x (List.mem_cons_of_mem _ hx)) hr
    have hc : p c = true := hm c (List.mem_cons_self _ _)
    exact ⟨l2.map (fun x => (c :: x.1, x.2)), by simp [rePlus, hc, h2]⟩

/-- The alternatives of `x*` on `m ++ r` that come before the split `(m, r)` are the
longer ones. -/
theorem reStar_split (p : Char → Bool) : ∀ (m r : GoString), (∀ c ∈ m, p c = true) →
    ∃ l1 l2, reStar p (m ++ r) = l1 ++ (m, r) :: l2 ∧
      ∀ y ∈ l1, ∃ a b, a ≠ [] ∧ y = (m ++ a, b) ∧ r = a ++ b := by
  intro m
  induction m with
  | nil =>
    intro r _
    cases r with
    | nil => exact ⟨[], [], rfl, by simp⟩
    | cons c cs =>
      by_cases hc : p c = true
      · refine ⟨(reStar p cs).map (fun x => (c :: x.1, x.2)), [], by simp [reStar, hc], ?_⟩
        intro y hy
        obtain ⟨⟨m1, r1⟩, hmem, rfl⟩ := List.mem_map.1 hy
        obtain ⟨e, -⟩ := reStar_sound p cs m1 r1 hmem
        exact ⟨c :: m1, r1, by simp, by simp, by simp [e]⟩
      · exact ⟨[], [], by simp [reStar, hc], by simp⟩
  | cons c m ih =>
    intro r hm
    obtain ⟨l1, l2, h2, hl1⟩ := ih r (fun x hx => hm x (List.mem_cons_of_mem _ hx))
    have hc : p c = true := hm c (List.mem_cons_self _ _)
    refine ⟨l1.map (fun x => (c :: x.1, x.2)),
      l2.map (fun x => (c :: x.1, x.2)) ++ [([], c :: (m ++ r))], by simp [reStar, hc, h2], ?_⟩
    intro y hy
    obtain ⟨y0, hy0, rfl⟩ := List.mem_map.1 hy
    obtain ⟨a, b, ha, rfl, hr⟩ := hl1 y0 hy0
    exact ⟨a, b, ha, by simp, hr⟩

theorem rePlus_split (p : Char → Bool) (m r : GoString) (hne : m ≠ [])
    (hm : ∀ c ∈ m, p c = true) :
    ∃ l1 l2, rePlus p (m ++ r) = l1 ++ (m, r) :: l2 ∧
      ∀ y ∈ l1, ∃ a b, a ≠ [] ∧ y = (m ++ a, b) ∧ r = a ++ b := by
  cases m with
  | nil => exact absurd rfl hne
  | cons c m =>
    obtain ⟨l1, l2, h2, hl1⟩ := reStar_split p m r (fun x hx => hm x (List.mem_cons_of_mem _ hx))
    have hc : p c = true := hm c (List.mem_cons_self _ _)
    refine ⟨l1.map (fun x => (c :: x.1, x.2)), l2.map (fun x => (c :: x.1, x.2)),
      by simp [rePlus, hc, h2], ?_⟩
    intro y hy
    obtain ⟨y0, hy0, rfl⟩ := List.mem_map.1 hy
    obtain ⟨a, b, ha, rfl, hr⟩ := hl1 y0 hy0
    exact ⟨a, b, ha, by simp, hr⟩

theorem matchAt_eq_flatMap (s : GoString) : matchAt s = (rePlus isDot s).flatMap matchRest := rfl

theorem isDigit_colon : isDigit ':' = false := by decide

theorem isSpace_colon : isSpace ':' = false := by decide

/-- The rest of the expression needs two colons in the remaining input. -/
theorem matchRest_eq_nil (g1 : GoString × GoString) (h : g1.2.count ':' < 2) :
    matchRest g1 = [] := by
  rw [List.eq_nil_iff_forall_not_mem]
  intro m hm
  unfold matchRest at hm
  simp only [List.mem_flatMap, List.mem_map] at hm
  obtain ⟨r1, h2, ⟨n, r2⟩, h3, r3, h4, -⟩ := hm
  have e2 := (reLit_mem _ _ _).1 h2
  obtain ⟨e3, -, -⟩ := rePlus_sound _ _ _ _ h3
  have e4 := (reLit_mem _ _ _).1 h4
  simp only at e4
  rw [e2, e3, e4] at h
  simp at h
  omega

theorem matchRest_head (f n t : GoString) (hn : n ≠ []) (hnd : ∀ c ∈ n, isDigit c = true)
    (ht : ∀ c ∈ t, isDot c = true) (hts : ∃ c ∈ t, isSpace c = false) :
    ∃ whole l, matchRest (f, ':' :: (n ++ ':' :: t)) =
      [whole, f, n, t.dropWhile isSpace] :: l := by
  have hdrop : t.dropWhile isSpace ≠ [] := by
    intro h0
    obtain ⟨c, hc, hs⟩ := hts
    have := (List.dropWhile_eq_nil_iff.1 h0) c hc
    simp [hs] at this
  have hhead : ∀ c, (t.dropWhile isSpace).head? = some c → isSpace c = false := by
    intro c hc
    have := List.head?_dropWhile_not isSpace t
    rw [hc] at this
    simpa using this
  obtain ⟨l2, h2⟩ := rePlus_head isDigit n (':' :: t) hn hnd (by
    intro c hc
    simp only [List.head?_cons, Option.some.injEq] at hc
    subst hc
    exact isDigit_colon)
  obtain ⟨l3, h3⟩ := reStar_head isSpace (t.takeWhile isSpace) (t.dropWhile isSpace)
    (fun c hc => List.mem_takeWhile_imp hc) hhead
  rw [List.takeWhile_append_dropWhile] at h3
  obtain ⟨l4, h4⟩ := rePlus_head isDot (t.dropWhile isSpace) [] hdrop
    (fun c hc => ht c ((List.dropWhile_sublist _).subset hc)) (by simp)
  rw [List.append_nil] at h4
  refine ⟨f ++ ':' :: n ++ ':' :: t.takeWhile isSpace ++ t.dropWhile isSpace, ?_⟩
  simp only [matchRest, reLit, if_true, List.flatMap_cons, List.flatMap_nil, List.append_nil,
    h2, h3, h4, List.map_cons, List.cons_append]
  exact ⟨_, rfl⟩

theorem count_colon_of_digits (n : GoString) (hnd : ∀ c ∈ n, isDigit c = true) :
    n.count ':' = 0 := by
  rw [List.count_eq_zero]
  intro hmem
  have := hnd _ hmem
  rw [isDigit_colon] at this
  cases this

/-- On `f:n:t` with `t` free of colons, the preferred match at the start of the line
has groups `f`, `n` and `t` without its leading `\s` characters. -/
theorem matchAt_wellformed (f n t : GoString) (hf : f ≠ []) (hfd : ∀ c ∈ f, isDot c = true)
    (hn : n ≠ []) (hnd : ∀ c ∈ n, isDigit c = true)
    (htc : t.count ':' = 0) (ht : ∀ c ∈ t, isDot c = true)
    (hts : ∃ c ∈ t, isSpace c = false) :
    ∃ whole l, matchAt (f ++ ':' :: (n ++ ':' :: t)) =
      [whole, f, n, t.dropWhile isSpace] :: l := by
  obtain ⟨l1, l2, h12, hl1⟩ := rePlus_split isDot f (':' :: (n ++ ':' :: t)) hf hfd
  have hnil : l1.flatMap matchRest = [] := by
    rw [List.flatMap_eq_nil_iff]
    intro y hy
    obtain ⟨a, b, ha, rfl, hr⟩ := hl1 y hy
    apply matchRest_eq_nil
    have hcount : (':' :: (n ++ ':' :: t)).count ':' = 2 := by
      simp [count_colon_of_digits n hnd, htc]
    rw [hr, List.count_append] at hcount
    cases a with
    | nil => exact absurd rfl ha
    | cons x a =>
      simp only [List.cons_append, List.cons.injEq] at hr
      obtain ⟨rfl, -⟩ := hr
      simp only [List.count_cons_self] at hcount
      simp only
      omega
  obtain ⟨whole, l, hl⟩ := matchRest_head f n t hn hnd ht hts
  rw [matchAt_eq_flatMap, h12, List.flatMap_append, hnil, List.nil_append, List.flatMap_cons, hl]
  exact ⟨whole, _, rfl⟩

theorem FindStringSubmatch_wellformed (f n t : GoString) (hf : f ≠ [])
    (hfd : ∀ c ∈ f, isDot c = true) (hn : n ≠ []) (hnd : ∀ c ∈ n, isDigit c = true)
    (htc : t.count ':' = 0) (ht : ∀ c ∈ t, isDot c = true)
    (hts : ∃ c ∈ t, isSpace c = false) :
    ∃ whole, FindStringSubmatch (f ++ ':' :: (n ++ ':' :: t)) =
      [whole, f, n, t.dropWhile isSpace] := by
  obtain ⟨whole, l, hl⟩ := matchAt_wellformed f n t hf hfd hn hnd htc ht hts
  refine ⟨whole, ?_⟩
  cases f with
  | nil => exact absurd rfl hf
  | cons c f =>
    simp only [List.cons_append] at hl ⊢
    rw [FindStringSubmatch, hl]
    rfl

theorem alignLoop_singleton (r : RgResult) :
    alignLoop (longestFrom 0 [r]) [r] = [r] := by
  have h0 := refLength_nonneg r
  simp only [alignLoop, longestFrom, List.foldl_cons, List.foldl_nil, List.map_cons,
    List.map_nil, List.cons.injEq, and_true]
  simp only [RgResult.refLength] at h0 ⊢
  by_cases hc : len r.File + len r.Line > 0
  · rw [if_pos hc, if_neg (by omega)]
  · rw [if_neg hc, if_neg (by omega)]

/-! ## Lines with two colons that the expression does not match -/

/-- C1, what the code does: when some input line has at least two colons and the
expression does not match it (as for `"a:b:c"` and `"f:3:"`), `parseResults` does not
return: it panics on the `nil` submatch slice, so no record is produced for any line. -/
theorem parseResults_panics_on_unmatched_line (lines : List GoString) (l : GoString)
    (hl : l ∈ lines) (h2 : 2 ≤ l.count ':') (hm : FindStringSubmatch l = []) :
    parseResults lines = none ∧
    FindStringSubmatch "a:b:c".toList = [] ∧ parseResults ["a:b:c".toList] = none ∧
    FindStringSubmatch "f:3:".toList = [] ∧ parseResults ["f:3:".toList] = none := by
  refine ⟨?_, by decide, by decide, by decide, by decide⟩
  rw [parseResults_eq_collect, collect_eq_none lines l hl h2 hm]
  rfl

theorem parseResults_panics_on_unmatched_line_witness :
    "a:b:c".toList ∈ unmatchedLines ∧ 2 ≤ "a:b:c".toList.count ':' ∧
    FindStringSubmatch "a:b:c".toList = [] ∧
    parseResults unmatchedLines = none ∧
    parseResults (unmatchedLines.filter fun l => decide (l ≠ "a:b:c".toList)) =
      some [⟨"x".toList, "1".toList, "a".toList, 2⟩, ⟨"y".toList, "2".toList, "b".toList, 2⟩] :=
  ⟨by decide, by decide, by decide,
    (parseResults_panics_on_unmatched_line unmatchedLines "a:b:c".toList
      (by decide) (by decide) (by decide)).1, by decide⟩

/-! ## A preview that contains colon-digits-colon -/

/-- C2, the code at the failing input: on `"a:1:b:2:c"` the greedy first group runs
up to the last colon-digits-colon, so the record is `File = "a:1:b"`, `Line = "2"`,
`Preview = "c"`, not `File = "a"`, `Line = "1"`, `Preview = "b:2:c"`. -/
theorem parseResults_greedy_file_group :
    FindStringSubmatch "a:1:b:2:c".toList =
      ["a:1:b:2:c".toList, "a:1:b".toList, "2".toList, "c".toList] ∧
    parseResults ["a:1:b:2:c".toList] =
      some [⟨"a:1:b".toList, "2".toList, "c".toList, 2⟩] ∧
    parseResults ["a:1:b:2:c".toList] ≠
      some [⟨"a".toList, "1".toList, "b:2:c".toList, 2⟩] := by
  decide

/-! ## A well-formed line -/

/-- C3: for a non-empty `f` without colon or newline, a non-empty string `n` of ASCII
digits and a `t` without colon or newline that has a character outside `\s`,
`parseResults` on the single line `f:n:t` returns exactly one record, with
`File = f`, `Line = n`, `Preview = t` without its leading whitespace (the rest of
`t` kept as it is) and `Padding = 2`. -/
theorem parseResults_wellformed_line (f n t : GoString)
    (hf : f ≠ []) (hfc : ∀ c ∈ f, c ≠ ':' ∧ c ≠ '\n')
    (hn : n ≠ []) (hnd : ∀ c ∈ n, '0' ≤ c ∧ c ≤ '9')
    (htc : ∀ c ∈ t, c ≠ ':' ∧ c ≠ '\n') (hts : ∃ c ∈ t, isSpace c = false) :
    parseResults [f ++ ":".toList ++ n ++ ":".toList ++ t] =
      some [⟨f, n, t.dropWhile isSpace, 2⟩] ∧
    (∃ ws, t = ws ++ t.dropWhile isSpace ∧ ∀ c ∈ ws, isSpace c = true) ∧
    GlobalPadding = 2 := by
  have hfd : ∀ c ∈ f, isDot c = true := fun c hc => by simpa [isDot] using (hfc c hc).2
  have htd : ∀ c ∈ t, isDot c = true := fun c hc => by simpa [isDot] using (htc c hc).2
  have hnd2 : ∀ c ∈ n, isDigit c = true := fun c hc => by simpa [isDigit] using hnd c hc
  have htc0 : t.count ':' = 0 := by
    rw [List.count_eq_zero]
    intro hmem
    exact (htc _ hmem).1 rfl
  obtain ⟨whole, hw⟩ := FindStringSubmatch_wellformed f n t hf hfd hn hnd2 htc0 htd hts
  have hs : f ++ ":".toList ++ n ++ ":".toList ++ t = f ++ ':' :: (n ++ ':' :: t) := by
    simp
  refine ⟨?_, ⟨t.takeWhile isSpace, (List.takeWhile_append_dropWhile isSpace t).symm,
    fun c hc => List.mem_takeWhile_imp hc⟩, rfl⟩
  rw [hs, parseResults_eq_collect]
  obtain ⟨i, hi⟩ := (getIndexOfRgDelimiter_ok_iff (f ++ ':' :: (n ++ ':' :: t))).2 (by
    simp [List.count_append]
    omega)
  have hrec : recordOf (f ++ ':' :: (n ++ ':' :: t)) =
      some ⟨f, n, t.dropWhile isSpace, GlobalPadding⟩ := by
    simp [recordOf, hw]
  simp only [collect, hi, hrec, Option.map_some']
  rw [alignLoop_singleton]
  rfl

theorem parseResults_wellformed_line_witness :
    parseResults ["src/main.go:42:  \tx = 1  ".toList] =
      some [⟨"src/main.go".toList, "42".toList, "x = 1  ".toList, 2⟩] := by
  have h := (parseResults_wellformed_line "src/main.go".toList "42".toList
    "  \tx = 1  ".toList (by decide) (by decide) (by decide) (by decide) (by decide)
    (by decide)).1
  exact h

/-! ## Alignment -/

/-- C4: whenever `parseResults` returns, there is a value `longest`, the maximum of
`len(File) + len(Line)` over the returned records (an upper bound, attained when the
result is non-empty), such that every record has
`len(File) + len(Line) + Padding = 2 + longest`; hence the sum agrees on every pair
of records and a record with the longest `File`/`Line` keeps `Padding = 2`.  On
`["a.txt:3:foo", "bb.txt:12:bar baz"]` the paddings are 4 and 2. -/
theorem parseResults_padding_sum (lines : List GoString) (rs : List RgResult)
    (h : parseResults lines = some rs) :
    (∃ longest : Int,
      (∀ r ∈ rs, len r.File + len r.Line ≤ longest) ∧
      (rs ≠ [] → ∃ r ∈ rs, len r.File + len r.Line = longest) ∧
      (∀ r ∈ rs, len r.File + len r.Line + r.Padding = 2 + longest) ∧
      (∀ r ∈ rs, len r.File + len r.Line = longest → r.Padding = 2)) ∧
    (∀ r1 ∈ rs, ∀ r2 ∈ rs,
      len r1.File + len r1.Line + r1.Padding = len r2.File + len r2.Line + r2.Padding) ∧
    (parseResults exampleLines).map (List.map RgResult.Padding) = some [4, 2] := by
  have key : ∀ r ∈ rs, len r.File + len r.Line ≤ longestFrom 0 rs ∧
      len r.File + len r.Line + r.Padding = 2 + longestFrom 0 rs := by
    intro r hr
    obtain ⟨r0, l, -, hrec, rfl, hle⟩ := parseResults_mem lines rs h r hr
    obtain ⟨hpad, -⟩ := recordOf_sound l r0 hrec
    have hp := alignOne_padding (longestFrom 0 rs) r0
    have hl := alignOne_refLength (longestFrom 0 rs) r0
    simp only [RgResult.refLength] at hl hle hp
    simp only [GlobalPadding] at hpad
    by_cases hc : longestFrom 0 rs - (len r0.File + len r0.Line) > 0
    · rw [if_pos hc] at hp
      omega
    · rw [if_neg hc] at hp
      omega
  refine ⟨⟨longestFrom 0 rs, fun r hr => (key r hr).1, ?_, fun r hr => (key r hr).2, ?_⟩, ?_, ?_⟩
  · intro hne
    exact longestFrom_zero_attained rs hne
  · intro r hr he
    have := (key r hr).2
    omega
  · intro r1 h1 r2 h2
    rw [(key r1 h1).2, (key r2 h2).2]
  · decide

theorem parseResults_padding_sum_witness :
    parseResults exampleLines =
      some [⟨"a.txt".toList, "3".toList, "foo".toList, 4⟩,
            ⟨"bb.txt".toList, "12".toList, "bar baz".toList, 2⟩] ∧
    ((∃ longest : Int,
      (∀ r ∈ [(⟨"a.txt".toList, "3".toList, "foo".toList, 4⟩ : RgResult),
            ⟨"bb.txt".toList, "12".toList, "bar baz".toList, 2⟩],
        len r.File + len r.Line ≤ longest) ∧
      ([(⟨"a.txt".toList, "3".toList, "foo".toList, 4⟩ : RgResult),
            ⟨"bb.txt".toList, "12".toList, "bar baz".toList, 2⟩] ≠ [] →
        ∃ r ∈ [(⟨"a.txt".toList, "3".toList, "foo".toList, 4⟩ : RgResult),
            ⟨"bb.txt".toList, "12".toList, "bar baz".toList, 2⟩],
          len r.File + len r.Line = longest) ∧
      (∀ r ∈ [(⟨"a.txt".toList, "3".toList, "foo".toList, 4⟩ : RgResult),
            ⟨"bb.txt".toList, "12".toList, "bar baz".toList, 2⟩],
        len r.File + len r.Line + r.Padding = 2 + longest) ∧
      (∀ r ∈ [(⟨"a.txt".toList, "3".toList, "foo".toList, 4⟩ : RgResult),
            ⟨"bb.txt".toList, "12".toList, "bar baz".toList, 2⟩],
        len r.File + len r.Line = longest → r.Padding = 2)) ∧
    (∀ r1 ∈ [(⟨"a.txt".toList, "3".toList, "foo".toList, 4⟩ : RgResult),
            ⟨"bb.txt".toList, "12".toList, "bar baz".toList, 2⟩],
      ∀ r2 ∈ [(⟨"a.txt".toList, "3".toList, "foo".toList, 4⟩ : RgResult),
            ⟨"bb.txt".toList, "12".toList, "bar baz".toList, 2⟩],
      len r1.File + len r1.Line + r1.Padding = len r2.File + len r2.Line + r2.Padding) ∧
    (parseResults exampleLines).map (List.map RgResult.Padding) = some [4, 2]) :=
  ⟨by decide, parseResults_padding_sum exampleLines _ (by decide)⟩

/-! ## Record invariant -/

/-- C5: whenever `parseResults` returns, every returned record has a non-empty `File`,
a non-empty `Line` made only of the ASCII digits `0`..`9`, a non-empty `Preview`, and
`Padding` at least `GlobalPadding`, which is 2. -/
theorem parseResults_record_invariant (lines : List GoString) (rs : List RgResult)
    (h : parseResults lines = some rs) :
    ∀ r ∈ rs, r.File ≠ [] ∧ r.Line ≠ [] ∧ (∀ c ∈ r.Line, '0' ≤ c ∧ c ≤ '9') ∧
      r.Preview ≠ [] ∧ GlobalPadding ≤ r.Padding ∧ GlobalPadding = 2 := by
  intro r hr
  obtain ⟨r0, l, -, hrec, rfl, hle⟩ := parseResults_mem lines rs h r hr
  obtain ⟨hpad, -, -, hf, hn, hna, ht⟩ := recordOf_sound l r0 hrec
  obtain ⟨e1, e2, e3⟩ := alignOne_fields (longestFrom 0 rs) r0
  have hp := alignOne_padding (longestFrom 0 rs) r0
  rw [e1, e2, e3]
  refine ⟨hf, hn, ?_, ht, ?_, rfl⟩
  · intro c hc
    have := hna c hc
    simpa [isDigit] using this
  · rw [hp, hpad]
    split <;> omega

theorem parseResults_record_invariant_witness :
    parseResults exampleLines =
      some [⟨"a.txt".toList, "3".toList, "foo".toList, 4⟩,
            ⟨"bb.txt".toList, "12".toList, "bar baz".toList, 2⟩] ∧
    ∀ r ∈ [(⟨"a.txt".toList, "3".toList, "foo".toList, 4⟩ : RgResult),
            ⟨"bb.txt".toList, "12".toList, "bar baz".toList, 2⟩],
      r.File ≠ [] ∧ r.Line ≠ [] ∧ (∀ c ∈ r.Line, '0' ≤ c ∧ c ≤ '9') ∧
      r.Preview ≠ [] ∧ GlobalPadding ≤ r.Padding ∧ GlobalPadding = 2 :=
  ⟨by decide, parseResults_record_invariant exampleLines _ (by decide)⟩

/-! ## Re-running the alignment pass -/

/-- C6 as stated fails: on the records returned for
`["a.txt:3:foo", "bb.txt:12:bar baz"]`, whose paddings are 4 and 2, running the
alignment pass again (with `longest` recomputed over the records) gives paddings
6 and 2. -/
theorem realign_changes_padding :
    (parseResults exampleLines).map (List.map RgResult.Padding) = some [4, 2] ∧
    (parseResults exampleLines).map
      (fun rs => (alignLoop (longestFrom 0 rs) rs).map RgResult.Padding) = some [6, 2] := by
  decide

/-- C6, amended: on a result set returned by `parseResults`, running the alignment
pass again keeps `File`, `Line` and `Preview` and sets every `Padding` to
`2 + 2 * (longest - (len(File) + len(Line)))`; the padding of a record is unchanged
exactly when its `len(File) + len(Line)` equals `longest`, and grows by
`longest - (len(File) + len(Line))` otherwise. -/
theorem realign_padding (lines : List GoString) (rs : List RgResult)
    (h : parseResults lines = some rs) :
    alignLoop (longestFrom 0 rs) rs =
      rs.map (fun r =>
        { r with Padding := 2 + 2 * (longestFrom 0 rs - (len r.File + len r.Line)) }) ∧
    (∀ r ∈ rs, len r.File + len r.Line ≤ longestFrom 0 rs) ∧
    (∀ r ∈ rs, 2 + 2 * (longestFrom 0 rs - (len r.File + len r.Line)) =
      r.Padding + (longestFrom 0 rs - (len r.File + len r.Line))) ∧
    (∀ r ∈ rs, 2 + 2 * (longestFrom 0 rs - (len r.File + len r.Line)) = r.Padding ↔
      len r.File + len r.Line = longestFrom 0 rs) := by
  have key := parseResults_mem_aligned lines rs h
  simp only [RgResult.refLength] at key
  refine ⟨?_, fun r hr => (key r hr).1, ?_, ?_⟩
  · rw [alignLoop_eq_map]
    apply List.map_congr_left
    intro r hr
    obtain ⟨hle, hpad, -⟩ := key r hr
    unfold alignOne
    simp only
    split
    · congr 1
      omega
    · rename_i hc
      cases r with
      | mk f l p pad =>
        simp only at hpad hle hc ⊢
        congr 1
        omega
  · intro r hr
    obtain ⟨hle, hpad, -⟩ := key r hr
    omega
  · intro r hr
    obtain ⟨hle, hpad, -⟩ := key r hr
    omega

theorem realign_padding_witness :
    parseResults exampleLines =
      some [⟨"a.txt".toList, "3".toList, "foo".toList, 4⟩,
            ⟨"bb.txt".toList, "12".toList, "bar baz".toList, 2⟩] ∧
    alignLoop (longestFrom 0 [(⟨"a.txt".toList, "3".toList, "foo".toList, 4⟩ : RgResult),
            ⟨"bb.txt".toList, "12".toList, "bar baz".toList, 2⟩])
        [(⟨"a.txt".toList, "3".toList, "foo".toList, 4⟩ : RgResult),
            ⟨"bb.txt".toList, "12".toList, "bar baz".toList, 2⟩] =
      [(⟨"a.txt".toList, "3".toList, "foo".toList, 4⟩ : RgResult),
            ⟨"bb.txt".toList, "12".toList, "bar baz".toList, 2⟩].map (fun r =>
        { r with Padding := 2 + 2 * (longestFrom 0
          [(⟨"a.txt".toList, "3".toList, "foo".toList, 4⟩ : RgResult),
            ⟨"bb.txt".toList, "12".toList, "bar baz".toList, 2⟩] - (len r.File + len r.Line)) }) :=
  ⟨by decide, (realign_padding exampleLines _ (by decide)).1⟩

/-! ## Lines that fail the colon pre-check -/

/-- C7: `getIndexOfRgDelimiter` fails exactly on the lines with fewer than two colons;
such lines produce no record and do not influence the others: `parseResults` gives the
same result on the input with those lines removed, and when every remaining line
matches the expression the records are, in order, the groups parsed from the
remaining lines.  On `["x:1:a", "garbage line with no colons", "y:2:b"]` the result
is the two records for `x:1:a` and `y:2:b`, in that order. -/
theorem parseResults_drops_short_lines (lines : List GoString)
    (hmatch : ∀ l ∈ lines, 2 ≤ l.count ':' → FindStringSubmatch l ≠ []) :
    (∀ l : GoString, (∃ e, getIndexOfRgDelimiter l = .error e) ↔ l.count ':' < 2) ∧
    (∀ ls : List GoString,
      parseResults ls = parseResults (ls.filter fun l => decide (2 ≤ l.count ':'))) ∧
    (∃ rs, parseResults lines = some rs ∧
      rs.map (fun r => [r.File, r.Line, r.Preview]) =
        (lines.filter fun l => decide (2 ≤ l.count ':')).map
          fun l => (FindStringSubmatch l).tail) ∧
    parseResults ["x:1:a".toList, "garbage line with no colons".toList, "y:2:b".toList] =
      some [⟨"x".toList, "1".toList, "a".toList, 2⟩, ⟨"y".toList, "2".toList, "b".toList, 2⟩] := by
  refine ⟨getIndexOfRgDelimiter_error_iff, ?_, ?_, by decide⟩
  · intro ls
    rw [parseResults_eq_collect, parseResults_eq_collect]
    exact congrArg _ (collect_keptLines ls)
  · obtain ⟨new, hnew, hmap⟩ := collect_all_match lines hmatch
    refine ⟨alignLoop (longestFrom 0 new) new, ?_, ?_⟩
    · rw [parseResults_eq_collect, hnew]
      rfl
    · rw [← show keptLines lines = lines.filter fun l => decide (2 ≤ l.count ':') from rfl,
        ← hmap, alignLoop_eq_map, List.map_map]
      apply List.map_congr_left
      intro r _
      obtain ⟨e1, e2, e3⟩ := alignOne_fields (longestFrom 0 new) r
      simp [e1, e2, e3]

theorem parseResults_drops_short_lines_witness :
    (∀ l ∈ garbageLines, 2 ≤ l.count ':' → FindStringSubmatch l ≠ []) ∧
    (∃ rs, parseResults garbageLines = some rs ∧
      rs.map (fun r => [r.File, r.Line, r.Preview]) =
        (garbageLines.filter fun l => decide (2 ≤ l.count ':')).map
          fun l => (FindStringSubmatch l).tail) :=
  ⟨by decide, (parseResults_drops_short_lines garbageLines (by decide)).2.2.1⟩

/-! ## Rendering -/

/-- C8: for a record with `Padding >= 0`, `toString` is `File`, `":"`, `Line`,
`Padding` spaces and `Preview`, with nothing after the preview; and `writeResults`,
starting from an empty buffer, emits for such records the concatenation in list order
of `toString(r)` followed by a newline, which is the empty text for the empty list. -/
theorem writeResults_spec (rs : List RgResult) (h : ∀ r ∈ rs, 0 ≤ r.Padding) :
    (∀ r ∈ rs, r.toString =
      some (r.File ++ ":".toList ++ r.Line ++ List.replicate r.Padding.toNat ' ' ++ r.Preview)) ∧
    writeResults rs [] =
      some (rs.flatMap fun r =>
        r.File ++ ":".toList ++ r.Line ++ List.replicate r.Padding.toNat ' ' ++ r.Preview
          ++ "\n".toList) ∧
    (rs.mapM RgResult.toString).map (fun ss => ss.flatMap fun s => s ++ "\n".toList) =
      writeResults rs [] ∧
    writeResults [] [] = some [] := by
  refine ⟨fun r hr => toString_of_nonneg r (h r hr), ?_, ?_, rfl⟩
  · simpa [renderedLine] using writeResults_append rs [] h
  · rw [writeResults_append rs [] h]
    have hm : rs.mapM RgResult.toString = some (rs.map renderedLine) := by
      induction rs with
      | nil => rfl
      | cons r rs ih =>
        rw [List.mapM_cons, toString_of_nonneg r (h r (List.mem_cons_self _ _)),
          ih (fun x hx => h x (List.mem_cons_of_mem _ hx))]
        rfl
    rw [hm]
    simp [List.flatMap_map]

theorem writeResults_spec_witness :
    (∀ r ∈ [(⟨"a.txt".toList, "3".toList, "foo".toList, 4⟩ : RgResult),
        ⟨"bb.txt".toList, "12".toList, "bar baz".toList, 2⟩], 0 ≤ r.Padding) ∧
    writeResults [(⟨"a.txt".toList, "3".toList, "foo".toList, 4⟩ : RgResult),
        ⟨"bb.txt".toList, "12".toList, "bar baz".toList, 2⟩] [] =
      some "a.txt:3    foo\nbb.txt:12  bar baz\n".toList := by
  have h : ∀ r ∈ [(⟨"a.txt".toList, "3".toList, "foo".toList, 4⟩ : RgResult),
        ⟨"bb.txt".toList, "12".toList, "bar baz".toList, 2⟩], 0 ≤ r.Padding := by decide
  refine ⟨h, ?_⟩
  rw [(writeResults_spec _ h).2.1]
  decide

/-! ## The column at which the preview starts -/

/-- C9, the code at the failing inputs: the padding is computed from `len`, the number
of bytes, so a file name with a non-ASCII character shifts the preview.  For
`["é:1:a", "ab:1:b"]` both records get padding 2 and the rendered lines are
`"é:1  a"` and `"ab:1  b"`: the preview starts after 5 characters in the first and
after 6 in the second.  For `["café.txt:3:foo", "cafe.txt:12:bar"]` the previews
start after 12 and 13 characters. -/
theorem preview_column_differs :
    (parseResults nonAsciiLines).map (List.map RgResult.Padding) = some [2, 2] ∧
    (parseResults nonAsciiLines).map (List.map RgResult.toString) =
      some [some "\u00e9:1  a".toList, some "ab:1  b".toList] ∧
    (parseResults nonAsciiLines).map (List.map previewColumn) = some [some 5, some 6] ∧
    (parseResults cafeLines).map (List.map RgResult.toString) =
      some [some "caf\u00e9.txt:3  foo".toList, some "cafe.txt:12  bar".toList] ∧
    (parseResults cafeLines).map (List.map previewColumn) = some [some 12, some 13] := by
  decide

/-! ## Command-line arguments -/

/-- C10: on the argument list without the program name, `ParseArgs` returns
`(args[0], ".")` for one argument, `(args[0], args[1])` for two, and an error exactly
when the number of arguments is neither 1 nor 2 (the empty list included); `parseArgs`
of rgv.go behaves the same. -/
theorem ParseArgs_spec :
    (∀ a0 : GoString, ParseArgs [a0] = .ok (a0, ".".toList)) ∧
    (∀ a0 a1 : GoString, ParseArgs [a0, a1] = .ok (a0, a1)) ∧
    (∀ args : List GoString,
      (∃ e, ParseArgs args = .error e) ↔ (args.length ≠ 1 ∧ args.length ≠ 2)) ∧
    (∃ e, ParseArgs [] = .error e) ∧
    (∀ a0 : GoString, parseArgs [a0] = .ok (a0, ".".toList)) ∧
    (∀ a0 a1 : GoString, parseArgs [a0, a1] = .ok (a0, a1)) ∧
    (∀ args : List GoString,
      (∃ e, parseArgs args = .error e) ↔ (args.length ≠ 1 ∧ args.length ≠ 2)) ∧
    (∃ e, parseArgs [] = .error e) := by
  refine ⟨fun _ => rfl, fun _ _ => rfl, ?_, ⟨_, rfl⟩, fun _ => rfl, fun _ _ => rfl, ?_, ⟨_, rfl⟩⟩
  · intro args
    match args with
    | [] => simp [ParseArgs]
    | [_] => simp [ParseArgs]
    | [_, _] => simp [ParseArgs]
    | _ :: _ :: _ :: _ => simp [ParseArgs]
  · intro args
    match args with
    | [] => simp [parseArgs]
    | [_] => simp [parseArgs]
    | [_, _] => simp [parseArgs]
    | _ :: _ :: _ :: _ => simp [parseArgs]

end Rg
